import Mathlib

/-!
Verification development for the WeChat-HTML-to-Markdown converter
(`wechat_clean.py`).  The converter's data model and operations are shallowly
embedded here: strings are `List Char`, the parsed document tree is an
inductive `Node`, Python's float arithmetic is modelled by exact rationals,
and each helper of the source file becomes an executable Lean definition.
-/

namespace WC

/-- Convenience: a Lean string literal as the `List Char` the model uses. -/
def lc (s : String) : List Char := s.toList

/-- Horizontal whitespace as used by the source's regexes `[ \t]`. -/
def isHws (c : Char) : Bool := c = ' ' || c = '\t'

/-- Python whitespace (`str.strip`, regex `\s`) on the characters this
development can meet: ASCII whitespace, the information separators, next
line, no-break space and the Unicode line/paragraph separators. -/
def pyWs (c : Char) : Bool :=
  c = ' ' || c = '\t' || c = '\n' || c = '\r' || c = '\u000b' || c = '\u000c' ||
  c = '\u001c' || c = '\u001d' || c = '\u001e' || c = '\u0085' ||
  c = '\u00A0' || c = '\u2028' || c = '\u2029'

/-- Line-break characters recognised by Python `str.splitlines`. -/
def isLB (c : Char) : Bool :=
  c = '\n' || c = '\r' || c = '\u000b' || c = '\u000c' || c = '\u001c' ||
  c = '\u001d' || c = '\u001e' || c = '\u0085' || c = '\u2028' || c = '\u2029'

/-- Python `str.lstrip()`. -/
def pyStripL (l : List Char) : List Char := l.dropWhile pyWs

/-- Python `str.rstrip()`. -/
def pyStripR (l : List Char) : List Char := (l.reverse.dropWhile pyWs).reverse

/-- Python `str.strip()`. -/
def pyStrip (l : List Char) : List Char := pyStripR (pyStripL l)

/-- Python `str.rstrip("\n")` as used on code blocks. -/
def rstripNl (l : List Char) : List Char := (l.reverse.dropWhile (· = '\n')).reverse

/-- Python `str.lower()` on the tag and attribute names of the model. -/
def pyLower (l : List Char) : List Char := l.map Char.toLower

/-- Python `str.splitlines`, worker: `cur` is the current line reversed. -/
def pySplitAux : List Char → List Char → List (List Char)
  | cur, [] => if cur = [] then [] else [cur.reverse]
  | cur, '\r' :: '\n' :: rest => cur.reverse :: pySplitAux [] rest
  | cur, c :: rest =>
    if isLB c then cur.reverse :: pySplitAux [] rest
    else pySplitAux (c :: cur) rest

/-- Python `str.splitlines()`. -/
def pySplitlines (l : List Char) : List (List Char) := pySplitAux [] l

/-- Worker of the model of `re.sub(r"[ \t]+\n", "\n", s)`: `run` holds (in
reverse) the pending horizontal-whitespace run; when a newline follows it is
discarded, when anything else follows it is flushed. -/
def sub1Go : List Char → List Char → List Char
  | run, [] => run.reverse
  | run, c :: rest =>
    if isHws c then sub1Go (c :: run) rest
    else if c = '\n' then '\n' :: sub1Go [] rest
    else run.reverse ++ c :: sub1Go [] rest

/-- Model of `re.sub(r"[ \t]+\n", "\n", s)`: every maximal horizontal
whitespace run directly followed by a newline is deleted. -/
def sub1 (l : List Char) : List Char := sub1Go [] l

/-- Worker of the model of `re.sub(r"\n[ \t]+", "\n", s)`: the flag says the
scan sits directly after a newline (possibly with whitespace already
swallowed). -/
def sub2Go : Bool → List Char → List Char
  | _, [] => []
  | afterNl, c :: rest =>
    if afterNl && isHws c then sub2Go true rest
    else if c = '\n' then '\n' :: sub2Go true rest
    else c :: sub2Go false rest

/-- Model of `re.sub(r"\n[ \t]+", "\n", s)`: every maximal horizontal
whitespace run directly after a newline is deleted. -/
def sub2 (l : List Char) : List Char := sub2Go false l

/-- Worker of the model of `re.sub(r"[ \t]{2,}", " ", s)`: the flag says the
scan sits inside a run already collapsed to one space. -/
def sub3Go : Bool → List Char → List Char
  | _, [] => []
  | true, c :: rest =>
    if isHws c then sub3Go true rest else c :: sub3Go false rest
  | false, c :: rest =>
    if isHws c then
      match rest with
      | d :: _ => if isHws d then ' ' :: sub3Go true rest else c :: sub3Go false rest
      | [] => [c]
    else c :: sub3Go false rest

/-- Model of `re.sub(r"[ \t]{2,}", " ", s)`: every maximal horizontal
whitespace run of length at least two collapses to one plain space (a lone
space or tab is left as it is). -/
def sub3 (l : List Char) : List Char := sub3Go false l

/-- The character replacement phase of `_clean_text`: non-breaking spaces
become plain spaces, zero-width spaces are deleted. -/
def cleanPhase1 (l : List Char) : List Char :=
  (l.map (fun c => if c = '\u00A0' then ' ' else c)).filter (· ≠ '\u200B')

/-- `_clean_text`. -/
def cleanText (l : List Char) : List Char := sub3 (sub2 (sub1 (cleanPhase1 l)))

/-- Model of `re.sub(r"\n{3,}", "\n\n", md)` at the entry point: a run of
three or more newlines is emitted as two and the rest of the run is
swallowed in the `true` state; shorter runs pass through unchanged. -/
def collNlGo : Bool → List Char → List Char
  | _, [] => []
  | true, '\n' :: rest => collNlGo true rest
  | true, c :: rest => c :: collNlGo false rest
  | false, '\n' :: '\n' :: '\n' :: rest => '\n' :: '\n' :: collNlGo true ('\n' :: '\n' :: rest)
  | false, '\n' :: rest => '\n' :: collNlGo false rest
  | false, c :: rest => c :: collNlGo false rest

/-- The entry point's blank-line collapse. -/
def collNl (l : List Char) : List Char := collNlGo false l

/-! ## The document tree -/

/-- A parsed document node: a text payload, a comment payload, or an element
with a tag name, an attribute mapping and ordered children. -/
inductive Node where
  | text (s : List Char)
  | comment (s : List Char)
  | elem (tag : List Char) (attrs : List (List Char × List Char)) (children : List Node)
deriving Repr

/-- Attribute lookup, `tag.get(key)`; HTML parsers store attribute names
lowercased. -/
def getAttr (attrs : List (List Char × List Char)) (key : List Char) : Option (List Char) :=
  match attrs.find? (fun kv => pyLower kv.1 = key) with
  | some kv => some kv.2
  | none => none

/-- Does the node's (lowercased) tag belong to the given set? -/
def tagIs (names : List (List Char)) : Node → Bool
  | .elem t _ _ => names.contains (pyLower t)
  | _ => false

/-- bs4 stores the contents of these tags as `Script`/`Stylesheet`/
`TemplateString`, which `get_text` skips by default (bs4 ≥ 4.9). -/
def strContainers : List (List Char) := [lc "script", lc "style", lc "template"]

mutual

/-- The strings that bs4 `get_text` gathers from one node whose parent has
the lowercased tag `p`: text (unless held by a string container), no
comments, and the collected strings of an element's children. -/
def collectNode : List Char → Node → List (List Char)
  | p, .text s => if strContainers.contains p then [] else [s]
  | _, .comment _ => []
  | _, .elem t _ children => collectList (pyLower t) children

/-- The strings gathered from a child list below a parent tagged `p`. -/
def collectList : List Char → List Node → List (List Char)
  | _, [] => []
  | p, n :: rest => collectNode p n ++ collectList p rest

end

/-- The descendant strings that bs4 `get_text` gathers under a node, in
document order; comments and the string containers above are skipped. -/
def collectTexts : Node → List (List Char)
  | .text s => [s]
  | .comment _ => []
  | .elem t _ children => collectList (pyLower t) children

/-- bs4 `node.get_text(" ", strip=True)`: each collected string stripped,
empties skipped, the rest joined by single spaces. -/
def getTextSep (n : Node) : List Char :=
  List.intercalate (lc " ") (((collectTexts n).map pyStrip).filter (· ≠ []))

/-- bs4 `node.get_text()`: the collected strings concatenated. -/
def getTextRaw (n : Node) : List Char := (collectTexts n).flatten

mutual

/-- A node together with its element descendants, in document order
(pre-order); strings contribute nothing. -/
def selfDesc : Node → List Node
  | .elem t a c => .elem t a c :: descList c
  | _ => []

/-- Worker of `selfDesc` over a child list. -/
def descList : List Node → List Node
  | [] => []
  | n :: rest => selfDesc n ++ descList rest

end

/-- The element descendants of a node (excluding the node itself), in
document order; domain of bs4 `find_all`. -/
def descNodes : Node → List Node
  | .elem _ _ c => descList c
  | _ => []

/-- bs4 `node.find_all(names, recursive=True)`. -/
def findAll (n : Node) (names : List (List Char)) : List Node :=
  (descNodes n).filter (tagIs names)

/-- The direct children of an element. -/
def directChildren : Node → List Node
  | .elem _ _ c => c
  | _ => []

/-! ## Font-size extraction (`FONT_RE` and `_parse_font_px`) -/

/-- Case-insensitively strip an (already lowercase) literal from the front,
returning the remainder on success. -/
def stripLit : List Char → List Char → Option (List Char)
  | [], l => some l
  | _ :: _, [] => none
  | p :: ps, c :: cs => if Char.toLower c = p then stripLit ps cs else none

/-- Try to match `font-size\s*:\s*([0-9.]+)\s*(px|pt)` (case-insensitive) at
the head of the list; on success return the number text and the lowercased
second unit letter (`x` or `t`). -/
def matchFontAt (l : List Char) : Option (List Char × Char) :=
  match stripLit (lc "font-size") l with
  | none => none
  | some r1 =>
    match r1.dropWhile pyWs with
    | ':' :: r3 =>
      let r4 := r3.dropWhile pyWs
      let num := r4.takeWhile (fun c => c.isDigit || c = '.')
      let r5 := r4.dropWhile (fun c => c.isDigit || c = '.')
      if num = [] then none
      else
        match r5.dropWhile pyWs with
        | p :: u :: _ =>
          if Char.toLower p = 'p' ∧ (Char.toLower u = 'x' ∨ Char.toLower u = 't')
          then some (num, Char.toLower u) else none
        | _ => none
    | _ => none

/-- `re.search`: first position at which the font-size pattern matches. -/
def fontSearch : List Char → Option (List Char × Char)
  | [] => none
  | c :: rest =>
    match matchFontAt (c :: rest) with
    | some r => some r
    | none => fontSearch rest

/-- Decimal digits to a natural number. -/
def digitsNat (l : List Char) : ℕ :=
  l.foldl (fun acc c => acc * 10 + (c.toNat - 48)) 0

/-- Python `float()` on a `[0-9.]+` match, modelled exactly as a pair
(numerator, positive denominator).  On the degenerate matches `"."` or
`"1.2.3"` Python would raise `ValueError` out of the converter; the model
returns no value there. -/
def pyFloat? (l : List Char) : Option (ℕ × ℕ) :=
  let intPart := l.takeWhile Char.isDigit
  match l.dropWhile Char.isDigit with
  | [] => if intPart = [] then none else some (digitsNat intPart, 1)
  | '.' :: frac =>
    if frac.all Char.isDigit ∧ (intPart ≠ [] ∨ frac ≠ []) then
      some (digitsNat intPart * 10 ^ frac.length + digitsNat frac, 10 ^ frac.length)
    else none
  | _ => none

/-- `_parse_font_px`: points scale to pixel-equivalents by 4/3.  Exact
rational in place of the Python float. -/
def parseFontPx (style : List Char) : Option ℚ :=
  match fontSearch style with
  | none => none
  | some (num, unit) =>
    match pyFloat? num with
    | none => none
    | some (n, d) =>
      some (if unit = 'x' then mkRat n d else mkRat (4 * n) (3 * d))

/-- Tags probed by `_max_font_px` besides the element itself. -/
def inlineProbeTags : List (List Char) :=
  [lc "span", lc "strong", lc "b", lc "em", lc "i", lc "font"]

/-- Python `max` on two rationals (kernel-evaluable form). -/
def rmax (a b : ℚ) : ℚ := if a ≤ b then b else a

/-- Worker of `_max_font_px`: fold with the source's early `break` once the
running maximum reaches 24. -/
def maxFontGo : ℚ → List Node → ℚ
  | mx, [] => mx
  | mx, t :: rest =>
    let mx' :=
      match t with
      | .elem _ attrs _ =>
        match getAttr attrs (lc "style") with
        | some s =>
          if s ≠ [] then
            match parseFontPx s with
            | some px => if px ≠ 0 then rmax mx px else mx
            | none => mx
          else mx
        | none => mx
      | _ => mx
    if 24 ≤ mx' then mx' else maxFontGo mx' rest

/-- `_max_font_px`. -/
def maxFontPx (n : Node) : ℚ := maxFontGo 0 (n :: findAll n inlineProbeTags)

/-! ## The heading classifier (`_looks_like_heading`) -/

/-- The tag set whose text counts as bold. -/
def boldTags : List (List Char) := [lc "strong", lc "b"]

/-- The concatenated stripped text of every bold/strong descendant
(line 94 of the source). -/
def boldText (p : Node) : List Char := ((findAll p boldTags).map getTextSep).flatten

/-- `bold_ratio = len(bold_text) / max(1, len(text))`, exactly. -/
def boldRatio (p : Node) : ℚ :=
  mkRat ((boldText p).length : ℤ) (max 1 (getTextSep p).length)

/-- `_looks_like_heading`.  Python's float thresholds 0.85 and 0.95 are
modelled by the exact rationals 85/100 and 95/100. -/
def looksLikeHeading (p : Node) : Bool × Nat :=
  let text := getTextSep p
  if text = [] ∨ text.length > 60 then (false, 0)
  else
    let ratio := boldRatio p
    let mx := maxFontPx p
    if ratio ≥ mkRat 85 100 ∨ mx ≥ 16 then
      if mx ≥ 22 then (true, 2)
      else if mx ≥ 18 then (true, 3)
      else if ratio ≥ mkRat 95 100 ∧ text.length ≤ 30 then (true, 3)
      else if ratio ≥ mkRat 85 100 ∧ text.length ≤ 20 then (true, 4)
      else (false, 0)
    else (false, 0)

/-! ## The inline renderer (`_inline_md`) -/

/-- Escape backticks: `txt.replace wraps each with a backslash`. -/
def escBt (l : List Char) : List Char :=
  l.flatMap (fun c => if [c] = lc "`" then lc "\\`" else [c])

/-- Media tags dropped by both renderers. -/
def mediaTags : List (List Char) :=
  [lc "img", lc "figure", lc "video", lc "audio", lc "source", lc "iframe",
   lc "canvas", lc "svg"]

mutual

/-- `_inline_md`.  The first argument is the tag of the node's parent
(Python reads it from the tree's parent pointers; the embedding passes it
down from the call site). -/
def inlineMd : Option (List Char) → Node → List Char
  | _, .comment _ => []
  | _, .text s => s
  | parent, .elem tag attrs children =>
    let name := pyLower tag
    if name ∈ [lc "script", lc "style", lc "noscript"] then []
    else if name ∈ mediaTags then []
    else if name = lc "br" then lc "\n"
    else if name = lc "a" then inlineList tag children
    else if name ∈ [lc "strong", lc "b"] then
      let txt := pyStrip (inlineList tag children)
      if txt.isEmpty then [] else lc "**" ++ txt ++ lc "**"
    else if name ∈ [lc "em", lc "i"] then
      let txt := pyStrip (inlineList tag children)
      if txt.isEmpty then [] else lc "*" ++ txt ++ lc "*"
    else if name = lc "code" ∧ (parent = none ∨ pyLower (parent.getD []) ≠ lc "pre") then
      lc "`" ++ escBt (getTextRaw (.elem tag attrs children)) ++ lc "`"
    else inlineList tag children

/-- Inline-render a child list; `t` is the (raw) tag of their parent. -/
def inlineList : List Char → List Node → List Char
  | _, [] => []
  | t, n :: rest => inlineMd (some t) n ++ inlineList t rest

end

/-! ## The block renderer (`_to_md` and `_li_to_md`) -/

/-- The block renderer's hard-drop set (line 146 of the source). -/
def hardDropTags : List (List Char) :=
  [lc "script", lc "style", lc "noscript", lc "img", lc "figure", lc "video",
   lc "audio", lc "source", lc "iframe", lc "canvas", lc "svg"]

/-- List tags. -/
def listTags : List (List Char) := [lc "ul", lc "ol"]

/-- Python `str(index)` for the ordered-list marker. -/
def natStr (n : Nat) : List Char := (Nat.repr n).toList

/-- One table row: tab-joined cell texts, or nothing when every cell is
empty. -/
def tableRow (tr : Node) : Option (List Char) :=
  let cells := (findAll tr [lc "th", lc "td"]).map getTextSep
  if cells.any (fun c => !c.isEmpty) then some (List.intercalate (lc "\t") cells)
  else none

/-- The `table` branch of `_to_md`. -/
def tableMd (n : Node) : List Char :=
  let rows := (findAll n [lc "tr"]).filterMap tableRow
  if rows.isEmpty then [] else List.intercalate (lc "\n") rows ++ lc "\n\n"

/-- The straight-line part of `_li_to_md` on an element: split the children
into nested lists and content, clean the inline-rendered content, and build
the item line; `nestedMd` is the render of the nested lists one level
deeper. -/
def liBody (tag : List Char) (children : List Node) (lvl : Nat) (ordered : Bool)
    (idx : Nat) (nestedMd : List Char) : List Char :=
  let hasNested := children.any (tagIs listTags)
  let text := pyStrip (cleanText (inlineList tag (children.filter (fun c => !tagIs listTags c))))
  if text.isEmpty ∧ !hasNested then []
  else
    let indent := List.replicate (2 * lvl) ' '
    let mark := if ordered then natStr idx ++ lc ". " else lc "- "
    let line := pyStripR (indent ++ mark ++ text) ++ lc "\n"
    line ++ nestedMd

mutual

/-- `_to_md`. -/
def toMd : Node → Nat → List Char
  | .comment _, _ => []
  | .text s, _ => s
  | .elem tag attrs children, lvl =>
    let name := pyLower tag
    if name ∈ hardDropTags then []
    else if name ∈ [lc "article", lc "div", lc "section"] then toMdList children lvl
    else if name ∈ [lc "h1", lc "h2", lc "h3", lc "h4", lc "h5", lc "h6"] then
      let hlvl := (name.getD 1 '0').toNat - 48
      let text := pyStrip (cleanText (inlineList tag children))
      if text.isEmpty then [] else List.replicate hlvl '#' ++ lc " " ++ text ++ lc "\n\n"
    else if name = lc "p" then
      let textPlain := getTextSep (.elem tag attrs children)
      if textPlain.isEmpty then []
      else
        let r := looksLikeHeading (.elem tag attrs children)
        if r.1 then List.replicate r.2 '#' ++ lc " " ++ pyStrip (cleanText textPlain) ++ lc "\n\n"
        else
          let text := pyStrip (cleanText (inlineList tag children))
          if text.isEmpty then [] else text ++ lc "\n\n"
    else if name = lc "blockquote" then
      let inner := pyStrip (cleanText (toMdList children lvl))
      if inner.isEmpty then []
      else
        let lines := (pySplitlines inner).filter (fun ln => !(pyStrip ln).isEmpty)
        List.intercalate (lc "\n") (lines.map (fun ln => lc "> " ++ ln)) ++ lc "\n\n"
    else if name = lc "ul" then
      let items := ulItems children lvl
      items.flatten ++ (if items.any (fun i => !i.isEmpty) then lc "\n" else [])
    else if name = lc "ol" then
      let items := olItems children lvl 1
      items.flatten ++ (if !items.isEmpty then lc "\n" else [])
    else if name = lc "pre" then
      let code := rstripNl (getTextRaw (.elem tag attrs children))
      if (pyStrip code).isEmpty then [] else lc "```\n" ++ code ++ lc "\n```\n\n"
    else if name = lc "table" then tableMd (.elem tag attrs children)
    else if name = lc "hr" then lc "\n---\n\n"
    else toMdList children lvl

/-- Block-render a child list. -/
def toMdList : List Node → Nat → List Char
  | [], _ => []
  | n :: rest, lvl => toMd n lvl ++ toMdList rest lvl

/-- The renders of the direct `li` children of a `ul`
(`find_all("li", recursive=False)` plus `_li_to_md` with index 1). -/
def ulItems : List Node → Nat → List (List Char)
  | [], _ => []
  | n :: rest, lvl =>
    if tagIs [lc "li"] n then liToMd n lvl false 1 :: ulItems rest lvl
    else ulItems rest lvl

/-- The renders of the direct `li` children of an `ol`, enumerated from
`idx`. -/
def olItems : List Node → Nat → Nat → List (List Char)
  | [], _, _ => []
  | n :: rest, lvl, idx =>
    if tagIs [lc "li"] n then liToMd n lvl true idx :: olItems rest lvl (idx + 1)
    else olItems rest lvl idx

/-- `_li_to_md`. -/
def liToMd (li : Node) (lvl : Nat) (ordered : Bool) (idx : Nat) : List Char :=
  match li with
  | .elem tag _ children => liBody tag children lvl ordered idx (liNested children (lvl + 1))
  | _ => []

/-- Block-render the nested-list children of a list item at the deeper
level (non-list children contribute nothing here). -/
def liNested : List Node → Nat → List Char
  | [], _ => []
  | n :: rest, lvl =>
    (if tagIs listTags n then toMd n lvl else []) ++ liNested rest lvl

end

/-! ## The conversion pipeline (`wechat_html_to_markdown` after parsing and
content/title location) -/

/-- The noisy tags decomposed before conversion (lines 245-249). -/
def noisyTags : List (List Char) :=
  [lc "script", lc "style", lc "noscript", lc "iframe", lc "form", lc "input",
   lc "button", lc "textarea", lc "select", lc "option", lc "img", lc "figure",
   lc "video", lc "audio", lc "source", lc "canvas", lc "svg"]

mutual

/-- Comment extraction below the root: a comment vanishes, an element keeps
its cleaned children, text survives. -/
def remCommentsN : Node → List Node
  | .comment _ => []
  | .elem t a c => [.elem t a (remCommentsL c)]
  | n => [n]

/-- Comment extraction over a child list. -/
def remCommentsL : List Node → List Node
  | [] => []
  | n :: rest => remCommentsN n ++ remCommentsL rest

end

/-- Comment extraction at the content root
(bs4 `find_all` never matches the root itself). -/
def removeComments : Node → Node
  | .elem t a c => .elem t a (remCommentsL c)
  | n => n

mutual

/-- `tag.decompose()` of every noisy descendant. -/
def remNoisyN : Node → List Node
  | .elem t a c =>
    if pyLower t ∈ noisyTags then [] else [.elem t a (remNoisyL c)]
  | n => [n]

/-- Noisy-tag removal over a child list. -/
def remNoisyL : List Node → List Node
  | [] => []
  | n :: rest => remNoisyN n ++ remNoisyL rest

end

/-- Noisy-tag removal at the content root. -/
def removeNoisy : Node → Node
  | .elem t a c => .elem t a (remNoisyL c)
  | n => n

mutual

/-- `a.replace_with(a.get_text(" ", strip=True))` for every descendant
hyperlink. -/
def unwrapN : Node → Node
  | .elem t a c =>
    if pyLower t = lc "a" then .text (getTextSep (.elem t a c))
    else .elem t a (unwrapL c)
  | n => n

/-- Hyperlink unwrapping over a child list. -/
def unwrapL : List Node → List Node
  | [] => []
  | n :: rest => unwrapN n :: unwrapL rest

end

/-- Hyperlink unwrapping at the content root. -/
def unwrapRoot : Node → Node
  | .elem t a c => .elem t a (unwrapL c)
  | n => n

mutual

/-- `tag.attrs = {}` on an element and its descendants. -/
def stripN : Node → Node
  | .elem t _ c => .elem t [] (stripL c)
  | n => n

/-- Attribute stripping over a child list. -/
def stripL : List Node → List Node
  | [] => []
  | n :: rest => stripN n :: stripL rest

end

/-- Attribute stripping at the content root (`find_all(True)` does not
match the root, whose attributes are kept). -/
def stripAttrsDesc : Node → Node
  | .elem t a c => .elem t a (stripL c)
  | n => n

/-- The sanitising passes of the entry point, in source order: comments,
noisy tags, hyperlinks, then attributes — all before `_to_md` runs. -/
def sanitize (n : Node) : Node :=
  stripAttrsDesc (unwrapRoot (removeNoisy (removeComments n)))

/-- Lines 259-260: render, normalise whitespace, strip, collapse blank
lines, strip, and terminate with one newline. -/
def bodyMd (content : Node) : List Char :=
  pyStrip (collNl (pyStrip (cleanText (toMd content 0)))) ++ lc "\n"

/-- `md.splitlines()[0] if md.splitlines() else ""`. -/
def firstLineRaw (md : List Char) : List Char :=
  match pySplitlines md with
  | [] => []
  | l :: _ => l

/-- `md.splitlines()[0].strip() if md.splitlines() else ""`. -/
def firstLine (md : List Char) : List Char := pyStrip (firstLineRaw md)

/-- Lines 263-266: prepend the title as an H1 unless the body already opens
with that heading. -/
def prependTitle (title md : List Char) : List Char :=
  if title.isEmpty then md
  else
    let fl := firstLine md
    if (lc "# ").isPrefixOf fl ∧ pyStrip (fl.drop 2) = title then md
    else lc "# " ++ title ++ lc "\n\n" ++ md

/-- The conversion pipeline from (title, content root) to the final
Markdown string - `wechat_html_to_markdown` without its file I/O. -/
def wechatMd (title : List Char) (content : Node) : List Char :=
  prependTitle title (bodyMd (sanitize content))

/-! ## Specification-side definitions

The following definitions transcribe claims of the specification (not the
source); the theorems below compare them with the source-side definitions
above. -/

/-- Claim C3's classifier contract, written from the spec's words: accept
exactly when the text is non-empty, at most 60 characters, and bold ratio
or probed font size passes; then pick the level by first match in the
stated priority order. -/
def headingSpec (p : Node) : Bool × Nat :=
  let n := (getTextSep p).length
  let ratio := boldRatio p
  let mx := maxFontPx p
  if getTextSep p ≠ [] ∧ n ≤ 60 ∧ (ratio ≥ mkRat 85 100 ∨ mx ≥ 16) then
    if mx ≥ 22 then (true, 2)
    else if mx ≥ 18 then (true, 3)
    else if ratio ≥ mkRat 95 100 ∧ n ≤ 30 then (true, 3)
    else if ratio ≥ mkRat 85 100 ∧ n ≤ 20 then (true, 4)
    else (false, 0)
  else (false, 0)

/-- Claim C4's unordered-list contract: render every direct `li` child at
index 1, append one blank line exactly when some item rendered non-empty. -/
def ulSpecRender (children : List Node) (lvl : Nat) : List Char :=
  let items := (children.filter (tagIs [lc "li"])).map (fun li => liToMd li lvl false 1)
  items.flatten ++ (if items.any (fun i => !i.isEmpty) then lc "\n" else [])

/-- The ordered-list behaviour the code implements (claim C4 amended):
1-based sequential indices over the direct `li` children, and a trailing
blank line exactly when at least one direct `li` child exists - even when
every item renders empty. -/
def olCodedRender (children : List Node) (lvl : Nat) : List Char :=
  let items := (children.filter (tagIs [lc "li"])).mapIdx (fun i li => liToMd li lvl true (i + 1))
  items.flatten ++ (if !items.isEmpty then lc "\n" else [])

/-- Claim C6's whitespace contract as a single pass: a horizontal run next
to a newline (before or after) is removed, any other run of two or more
horizontal whitespace characters collapses to one plain space, everything
else - newlines included - is kept; the flag says the scan sits directly
after a newline. -/
def specCleanGo : Bool → List Char → List Char
  | _, [] => []
  | afterNl, c :: rest =>
    if isHws c then
      if afterNl ∨ ((c :: rest).dropWhile isHws).head? = some '\n' then
        specCleanGo false ((c :: rest).dropWhile isHws)
      else if 2 ≤ ((c :: rest).takeWhile isHws).length then
        ' ' :: specCleanGo false ((c :: rest).dropWhile isHws)
      else c :: specCleanGo false ((c :: rest).dropWhile isHws)
    else if c = '\n' then '\n' :: specCleanGo true rest
    else c :: specCleanGo false rest
termination_by _ l => l.length
decreasing_by
  all_goals
    have H : ∀ l : List Char, (l.dropWhile isHws).length ≤ l.length := by
      intro l
      induction l with
      | nil => simp
      | cons a l ih =>
        by_cases h : isHws a
        · rw [List.dropWhile_cons_of_pos h]; exact Nat.le_trans ih (Nat.le_succ _)
        · rw [List.dropWhile_cons_of_neg h]
  · rw [List.dropWhile_cons_of_pos (by assumption)]
    exact Nat.lt_succ_of_le (H rest)
  · rw [List.dropWhile_cons_of_pos (by assumption)]
    exact Nat.lt_succ_of_le (H rest)
  · rw [List.dropWhile_cons_of_pos (by assumption)]
    exact Nat.lt_succ_of_le (H rest)
  · exact Nat.lt_succ_of_le (Nat.le_refl _)
  · exact Nat.lt_succ_of_le (Nat.le_refl _)

/-- Claim C6's single-pass contract for `_clean_text` (replacement phase
included). -/
def specClean (s : List Char) : List Char := specCleanGo false (cleanPhase1 s)

/-- Claim C6's blank-line collapse contract: every maximal newline run of
length three or more becomes exactly two newlines, shorter runs are kept
as they are. -/
def specColl : List Char → List Char
  | [] => []
  | c :: rest =>
    if c = '\n' then
      List.replicate (min ((c :: rest).takeWhile (· = '\n')).length 2) '\n' ++
        specColl ((c :: rest).dropWhile (· = '\n'))
    else c :: specColl rest
termination_by l => l.length
decreasing_by
  all_goals
    have H : ∀ l : List Char, (l.dropWhile (fun x => x = '\n')).length ≤ l.length := by
      intro l
      induction l with
      | nil => simp
      | cons a l ih =>
        rw [List.dropWhile_cons]
        split
        · exact Nat.le_trans ih (Nat.le_succ _)
        · exact Nat.le_refl _
  · have hc : (fun x => decide (x = '\n')) c = true := by
      simp [‹c = '\n'›]
    rw [List.dropWhile_cons, if_pos hc]
    exact Nat.lt_succ_of_le (H rest)
  · exact Nat.lt_succ_of_le (Nat.le_refl _)

/-- Does a string end with exactly one trailing newline (a final newline
not preceded by another one)? -/
def endsOneNl (l : List Char) : Bool :=
  l.reverse.head? = some '\n' && !(l.reverse.tail.head? = some '\n')

/-! ## An induction principle for the nested tree -/

mutual

/-- Structural induction over a `Node`, with a joint motive for child
lists. -/
def nodeRecAux (motive : Node → Prop) (motiveL : List Node → Prop)
    (h1 : ∀ s, motive (.text s)) (h2 : ∀ s, motive (.comment s))
    (h3 : ∀ t a c, motiveL c → motive (.elem t a c))
    (h4 : motiveL []) (h5 : ∀ n l, motive n → motiveL l → motiveL (n :: l)) :
    ∀ n : Node, motive n
  | .text s => h1 s
  | .comment s => h2 s
  | .elem t a c => h3 t a c (listRecAux motive motiveL h1 h2 h3 h4 h5 c)

/-- Structural induction over a list of `Node`s. -/
def listRecAux (motive : Node → Prop) (motiveL : List Node → Prop)
    (h1 : ∀ s, motive (.text s)) (h2 : ∀ s, motive (.comment s))
    (h3 : ∀ t a c, motiveL c → motive (.elem t a c))
    (h4 : motiveL []) (h5 : ∀ n l, motive n → motiveL l → motiveL (n :: l)) :
    ∀ l : List Node, motiveL l
  | [] => h4
  | n :: l =>
    h5 n l (nodeRecAux motive motiveL h1 h2 h3 h4 h5 n)
      (listRecAux motive motiveL h1 h2 h3 h4 h5 l)

end

/-! ## Concrete example trees used by witnesses and counterexamples -/

/-- A short, fully bold paragraph with no declared font size. -/
def exBoldShort : Node :=
  .elem (lc "p") [] [.elem (lc "strong") [] [.text (lc "Project Goals")]]

/-- The same paragraph with a declared font size of 20px. -/
def exBoldShort20 : Node :=
  .elem (lc "p") []
    [.elem (lc "strong") [(lc "style", lc "font-size:20px")] [.text (lc "Project Goals")]]

/-- The same paragraph with a declared font size of 23px. -/
def exBoldShort23 : Node :=
  .elem (lc "p") []
    [.elem (lc "strong") [(lc "style", lc "font-size:23px")] [.text (lc "Project Goals")]]

/-- A 70-character fully bold paragraph. -/
def exBoldLong : Node :=
  .elem (lc "p") [] [.elem (lc "strong") [] [.text (List.replicate 70 'a')]]

/-- A paragraph whose whole text sits in a bold element inside another
bold element. -/
def exNestBold : Node :=
  .elem (lc "p") [] [.elem (lc "b") [] [.elem (lc "b") [] [.text (lc "Hello")]]]

/-- A content root carrying a font-size style on a short paragraph. -/
def exFontP : Node :=
  .elem (lc "div") [] [.elem (lc "p") [(lc "style", lc "font-size:23px")] [.text (lc "Hi")]]

/-- A content root that is itself a styled short paragraph: attribute
stripping only touches descendants, so its own font-size survives. -/
def exRootFontP : Node :=
  .elem (lc "p") [(lc "style", lc "font-size:23px")] [.text (lc "Hi")]

/-- An ordered list whose single item renders empty. -/
def exOlEmptyItem : Node := .elem (lc "ol") [] [.elem (lc "li") [] []]

/-- A code block containing a media element with text. -/
def exPreVideo : Node :=
  .elem (lc "pre") [] [.elem (lc "video") [] [.text (lc "LEAK")]]

/-- A list item with no text of its own, kept only for its nested list. -/
def exLiNestedOnly : Node :=
  .elem (lc "li") [] [.elem (lc "ul") [] [.elem (lc "li") [] [.text (lc "alpha")]]]

/-- A plain one-paragraph content root. -/
def exPlainDoc : Node := .elem (lc "div") [] [.elem (lc "p") [] [.text (lc "hello")]]

/-! ## Theorems -/

/-- Claim C10: the bold ratio concatenates the text of every bold/strong
descendant, so text inside nested bold elements counts once per enclosing
bold ancestor; on a paragraph whose whole text sits in a doubly nested bold
element the ratio is 2 - above 1 and unclamped - and the classifier still
accepts the paragraph. -/
theorem claim_C10 :
    boldRatio exNestBold = 2 ∧ 1 < boldRatio exNestBold ∧
    boldText exNestBold = lc "HelloHello" ∧ getTextSep exNestBold = lc "Hello" ∧
    looksLikeHeading exNestBold = (true, 3) :=
  ⟨by decide, by decide, by decide, by decide, by decide⟩

/-- Claim C1 (counterexample): a short, fully bold paragraph with no
declared font size is classified at level 3, not level 4 as the claim
states - the `boldRatio ≥ 0.95 ∧ length ≤ 30` rule fires before the
level-4 rule. -/
theorem claim_C1_counterexample :
    looksLikeHeading exBoldShort = (true, 3) ∧
    looksLikeHeading exBoldShort ≠ (true, 4) :=
  ⟨by decide, by decide⟩

/-- Claim C1 (amended): a fully bold paragraph shorter than 20 characters
with no declared font size is accepted at level 3 (not 4); with 20px it is
accepted at level 3; with 23px at level 2; and any paragraph whose visible
text has 70 characters is rejected regardless of font size. -/
theorem claim_C1 :
    (∀ p : Node, getTextSep p ≠ [] → (getTextSep p).length < 20 →
      boldRatio p = 1 → maxFontPx p = 0 → looksLikeHeading p = (true, 3)) ∧
    (∀ p : Node, getTextSep p ≠ [] → (getTextSep p).length < 20 →
      boldRatio p = 1 → maxFontPx p = 20 → looksLikeHeading p = (true, 3)) ∧
    (∀ p : Node, getTextSep p ≠ [] → (getTextSep p).length < 20 →
      boldRatio p = 1 → maxFontPx p = 23 → looksLikeHeading p = (true, 2)) ∧
    (∀ p : Node, (getTextSep p).length = 70 → looksLikeHeading p = (false, 0)) := by
  refine ⟨?_, ?_, ?_, ?_⟩
  · intro p h1 h2 h3 h4
    simp only [looksLikeHeading, h3, h4]
    rw [if_neg (by push_neg; exact ⟨h1, by omega⟩), if_pos (Or.inl (by decide)),
      if_neg (by decide), if_neg (by decide), if_pos ⟨by decide, by omega⟩]
  · intro p h1 h2 h3 h4
    simp only [looksLikeHeading, h3, h4]
    rw [if_neg (by push_neg; exact ⟨h1, by omega⟩), if_pos (Or.inr (by decide)),
      if_neg (by decide), if_pos (by decide)]
  · intro p h1 h2 h3 h4
    simp only [looksLikeHeading, h3, h4]
    rw [if_neg (by push_neg; exact ⟨h1, by omega⟩), if_pos (Or.inr (by decide)),
      if_pos (by decide)]
  · intro p h
    simp only [looksLikeHeading]
    rw [if_pos (Or.inr (by omega))]

/-- Claim C1 witness: the amended statement applied to the concrete
paragraphs `exBoldShort` (13 characters, ratio 1), its 20px and 23px
variants, and the 70-character `exBoldLong`. -/
theorem claim_C1_witness :
    (getTextSep exBoldShort ≠ [] ∧ (getTextSep exBoldShort).length < 20 ∧
      boldRatio exBoldShort = 1 ∧ maxFontPx exBoldShort = 0 ∧
      maxFontPx exBoldShort20 = 20 ∧ maxFontPx exBoldShort23 = 23 ∧
      (getTextSep exBoldLong).length = 70) ∧
    looksLikeHeading exBoldShort = (true, 3) ∧
    looksLikeHeading exBoldShort20 = (true, 3) ∧
    looksLikeHeading exBoldShort23 = (true, 2) ∧
    looksLikeHeading exBoldLong = (false, 0) := by
  refine ⟨by decide, ?_, ?_, ?_, ?_⟩
  · exact claim_C1.1 exBoldShort (by decide) (by decide) (by decide) (by decide)
  · exact claim_C1.2.1 exBoldShort20 (by decide) (by decide) (by decide) (by decide)
  · exact claim_C1.2.2.1 exBoldShort23 (by decide) (by decide) (by decide) (by decide)
  · exact claim_C1.2.2.2 exBoldLong (by decide)

/-- Claim C7 (counterexample): a hard-dropped `video` element nested in a
`pre` block leaks its text into the output, because the `pre` branch reads
the raw text content of the whole subtree rather than rendering children. -/
theorem claim_C7_counterexample :
    toMd exPreVideo 0 = lc "```\nLEAK\n```\n\n" ∧
    lc "LEAK" <:+: toMd exPreVideo 0 :=
  ⟨by decide, by decide⟩

/-- Claim C7 (amended): both renderers map every element of the hard-drop
set to the empty string, for every attribute list and every child list
(so neither renderer visits such children); text of hard-dropped subtrees
can still surface through the raw-text extraction paths (`pre`, inline
`code`, table cells, heading-promoted paragraphs). -/
theorem claim_C7 (tag : List Char) (attrs : List (List Char × List Char))
    (children : List Node) (lvl : Nat) (parent : Option (List Char))
    (h : pyLower tag ∈ hardDropTags) :
    toMd (.elem tag attrs children) lvl = [] ∧
    inlineMd parent (.elem tag attrs children) = [] := by
  constructor
  · simp only [toMd]
    rw [if_pos h]
  · by_cases h1 : pyLower tag ∈ [lc "script", lc "style", lc "noscript"]
    · simp only [inlineMd]
      rw [if_pos h1]
    · have h2 : pyLower tag ∈ mediaTags := by
        simp only [hardDropTags, List.mem_cons, List.not_mem_nil, or_false] at h
        simp only [List.mem_cons, List.not_mem_nil, or_false] at h1
        simp only [mediaTags, List.mem_cons, List.not_mem_nil, or_false]
        tauto
      simp only [inlineMd]
      rw [if_neg h1, if_pos h2]

/-- Claim C7 witness: the amended statement applied to a `video` element
with an attribute and a text child. -/
theorem claim_C7_witness :
    pyLower (lc "video") ∈ hardDropTags ∧
    toMd (.elem (lc "video") [(lc "src", lc "v.mp4")] [.text (lc "inner")]) 5 = [] ∧
    inlineMd none (.elem (lc "video") [(lc "src", lc "v.mp4")] [.text (lc "inner")]) = [] :=
  ⟨by decide,
   (claim_C7 (lc "video") [(lc "src", lc "v.mp4")] [.text (lc "inner")] 5 none (by decide)).1,
   (claim_C7 (lc "video") [(lc "src", lc "v.mp4")] [.text (lc "inner")] 5 none (by decide)).2⟩

/-- Claim C8: the inline rendering of a hyperlink is the concatenation of
its children's inline renderings, is independent of the attribute list
(in particular of `href`), and a link with a single text child renders to
exactly that text. -/
theorem claim_C8 (parent : Option (List Char)) (tag : List Char)
    (attrs attrs' : List (List Char × List Char)) (children : List Node)
    (h : pyLower tag = lc "a") :
    inlineMd parent (.elem tag attrs children) = inlineList tag children ∧
    inlineMd parent (.elem tag attrs children) = inlineMd parent (.elem tag attrs' children) ∧
    (∀ s : List Char, inlineMd parent (.elem tag attrs [.text s]) = s) := by
  have e : ∀ a : List (List Char × List Char),
      inlineMd parent (.elem tag a children) = inlineList tag children := by
    intro a
    simp only [inlineMd, h]
    rw [if_neg (by decide), if_neg (by decide), if_neg (by decide), if_pos trivial]
  refine ⟨e attrs, (e attrs).trans (e attrs').symm, ?_⟩
  intro s
  have e2 : inlineMd parent (.elem tag attrs [.text s]) = inlineList tag [.text s] := by
    simp only [inlineMd, h]
    rw [if_neg (by decide), if_neg (by decide), if_neg (by decide), if_pos trivial]
  rw [e2]
  simp [inlineList, inlineMd]

/-- Claim C8 witness: a link with the visible text `click here` and a
tracking query string renders to exactly `click here`, and identically to
the same link without any attributes. -/
theorem claim_C8_witness :
    inlineMd none (.elem (lc "a") [(lc "href", lc "https://mp.example/?track=1")]
        [.text (lc "click here")]) =
      inlineMd none (.elem (lc "a") [] [.text (lc "click here")]) ∧
    inlineMd none (.elem (lc "a") [(lc "href", lc "https://mp.example/?track=1")]
        [.text (lc "click here")]) = lc "click here" :=
  ⟨(claim_C8 none (lc "a") [(lc "href", lc "https://mp.example/?track=1")] []
      [.text (lc "click here")] (by decide)).2.1,
   (claim_C8 none (lc "a") [(lc "href", lc "https://mp.example/?track=1")] []
      [.text (lc "click here")] (by decide)).2.2 (lc "click here")⟩

/-- Helper: the unordered-list items are the mapped renders of the direct
`li` children. -/
theorem ulItems_eq (lvl : Nat) :
    ∀ children : List Node,
      ulItems children lvl =
        (children.filter (tagIs [lc "li"])).map (fun li => liToMd li lvl false 1) := by
  intro children
  induction children with
  | nil => rfl
  | cons n rest ih =>
    by_cases h : tagIs [lc "li"] n
    · simp [ulItems, List.filter_cons, h, ih]
    · simp [ulItems, List.filter_cons, h, ih]

/-- Helper: the ordered-list items are the index-mapped renders of the
direct `li` children, indices counted from `k`. -/
theorem olItems_eq (lvl : Nat) :
    ∀ (children : List Node) (k : Nat),
      olItems children lvl k =
        (children.filter (tagIs [lc "li"])).mapIdx (fun i li => liToMd li lvl true (k + i)) := by
  intro children
  induction children with
  | nil => intro k; rfl
  | cons n rest ih =>
    intro k
    by_cases h : tagIs [lc "li"] n
    · have e : olItems (n :: rest) lvl k = liToMd n lvl true k :: olItems rest lvl (k + 1) := by
        simp [olItems, h]
      rw [e, ih (k + 1), List.filter_cons_of_pos h, List.mapIdx_cons]
      have e2 : (fun i (li : Node) => liToMd li lvl true (k + 1 + i)) =
          fun i (li : Node) => liToMd li lvl true (k + (i + 1)) := by
        funext i li
        congr 1
        omega
      rw [e2]
      simp
    · have e : olItems (n :: rest) lvl k = olItems rest lvl k := by
        simp [olItems, h]
      rw [e, ih k, List.filter_cons_of_neg h]

/-- Claim C4 (counterexample): an ordered list whose single item renders
empty still appends a trailing blank line - the output is `"\n"`, not the
empty string the claim demands. -/
theorem claim_C4_counterexample :
    liToMd (.elem (lc "li") [] []) 0 true 1 = [] ∧
    toMd exOlEmptyItem 0 = lc "\n" ∧
    toMd exOlEmptyItem 0 ≠ [] :=
  ⟨by decide, by decide, by decide⟩

/-- Claim C4 (amended): an unordered list renders its direct `li` children
and appends one blank line exactly when some item rendered non-empty; an
ordered list renders its direct `li` children with 1-based sequential
indices and appends one blank line exactly when it has at least one direct
`li` child (even if every item renders empty). -/
theorem claim_C4 (tag : List Char) (attrs : List (List Char × List Char))
    (children : List Node) (lvl : Nat) :
    (pyLower tag = lc "ul" → toMd (.elem tag attrs children) lvl = ulSpecRender children lvl) ∧
    (pyLower tag = lc "ol" → toMd (.elem tag attrs children) lvl = olCodedRender children lvl) := by
  constructor
  · intro h
    simp only [toMd, h]
    rw [if_neg (by decide), if_neg (by decide), if_neg (by decide), if_neg (by decide),
      if_neg (by decide), if_pos trivial]
    simp only [ulSpecRender]
    rw [ulItems_eq]
  · intro h
    simp only [toMd, h]
    rw [if_neg (by decide), if_neg (by decide), if_neg (by decide), if_neg (by decide),
      if_neg (by decide), if_neg (by decide), if_pos trivial]
    simp only [olCodedRender]
    rw [olItems_eq]
    have e2 : (fun i (li : Node) => liToMd li lvl true (1 + i)) =
        fun i (li : Node) => liToMd li lvl true (i + 1) := by
      funext i li
      congr 1
      omega
    rw [e2]

/-- Claim C4 witness: the amended statement applied to a one-item
unordered list and to the ordered list with one empty item. -/
theorem claim_C4_witness :
    toMd (.elem (lc "ul") [] [.elem (lc "li") [] [.text (lc "x")]]) 0 =
      ulSpecRender [.elem (lc "li") [] [.text (lc "x")]] 0 ∧
    toMd exOlEmptyItem 0 = olCodedRender [.elem (lc "li") [] []] 0 :=
  ⟨(claim_C4 (lc "ul") [] [.elem (lc "li") [] [.text (lc "x")]] 0).1 (by decide),
   (claim_C4 (lc "ol") [] [.elem (lc "li") [] []] 0).2 (by decide)⟩

/-- Claim C2 (counterexample): the pipeline strips `style` attributes
before the renderer runs, so a short paragraph declared at 23px comes out
as a plain paragraph (`"Hi\n"`); rendering the same tree without the
pipeline's stripping would classify it at level 2 (`"## Hi\n\n"`).  The
pipeline therefore cannot observe the declared font size. -/
theorem claim_C2_counterexample :
    wechatMd [] exFontP = lc "Hi\n" ∧
    toMd exFontP 0 = lc "## Hi\n\n" ∧
    toMd (sanitize exFontP) 0 = lc "Hi\n\n" :=
  ⟨by decide, by decide, by decide⟩

/-- Claim C6 (counterexample): with a non-empty title and an empty content
root, the body collapses to a single newline, the title heading is
prepended in front of it, and the final output `"# T\n\n\n"` ends with
three newlines - not with exactly one trailing newline. -/
theorem claim_C6_counterexample :
    wechatMd (lc "T") (.elem (lc "div") [] []) = lc "# T\n\n\n" ∧
    endsOneNl (wechatMd (lc "T") (.elem (lc "div") [] [])) = false :=
  ⟨by decide, by decide⟩

/-- Claim C9 (counterexample): a list item with empty text kept only for
its nested list gets the line `"-"` - the marker's trailing space is
trimmed away, so the line is not of the form indent ++ `"- "` ++ text. -/
theorem claim_C9_counterexample :
    liToMd exLiNestedOnly 0 false 1 = lc "-\n  - alpha\n\n" ∧
    (lc "- ").isPrefixOf (liToMd exLiNestedOnly 0 false 1) = false :=
  ⟨by decide, by decide⟩

/-- Claim C3: the heading classifier agrees everywhere with the
specification's acceptance-and-priority contract `headingSpec`: accept
exactly when the text is non-empty, at most 60 characters long, and
`boldRatio ≥ 0.85` or `maxFontPx ≥ 16` holds; then the level rules fire in
the stated order with first match winning, and an acceptance without a
fired rule is a rejection. -/
theorem claim_C3 (p : Node) : looksLikeHeading p = headingSpec p := by
  simp only [looksLikeHeading, headingSpec]
  by_cases h1 : getTextSep p = []
  · rw [if_pos (Or.inl h1), if_neg (by tauto)]
  · by_cases h2 : (getTextSep p).length > 60
    · rw [if_pos (Or.inr h2), if_neg]
      rintro ⟨-, hle, -⟩
      omega
    · by_cases h3 : boldRatio p ≥ mkRat 85 100 ∨ maxFontPx p ≥ 16
      · have hc : getTextSep p ≠ [] ∧ (getTextSep p).length ≤ 60 ∧
            (boldRatio p ≥ mkRat 85 100 ∨ maxFontPx p ≥ 16) := ⟨h1, by omega, h3⟩
        rw [if_neg (by tauto), if_pos h3, if_pos hc]
      · rw [if_neg (by tauto), if_neg h3, if_neg (by tauto)]

/-- Helper: the head of a non-trivial `dropWhile` fails the predicate. -/
theorem dropWhile_head_false (p : α → Bool) :
    ∀ (l : List α) (d : α) (r : List α), l.dropWhile p = d :: r → p d = false := by
  intro l
  induction l with
  | nil => intro d r h; simp at h
  | cons a t ih =>
    intro d r h
    by_cases hpa : p a
    · rw [List.dropWhile_cons_of_pos hpa] at h
      exact ih d r h
    · rw [List.dropWhile_cons_of_neg hpa] at h
      cases h
      simpa using hpa

/-- Helper: `dropWhile` is idempotent. -/
theorem dropWhile_idem (p : α → Bool) (l : List α) :
    (l.dropWhile p).dropWhile p = l.dropWhile p := by
  cases h : l.dropWhile p with
  | nil => simp
  | cons d r =>
    rw [List.dropWhile_cons_of_neg (by simp [dropWhile_head_false p l d r h])]

/-- Helper: right-stripping is idempotent. -/
theorem pyStripR_idem (l : List Char) : pyStripR (pyStripR l) = pyStripR l := by
  unfold pyStripR
  rw [List.reverse_reverse, dropWhile_idem]

/-- Helper: right-stripping does not cross a right-stripped non-empty
suffix. -/
theorem pyStripR_append_of_keep (a b : List Char) (hb : pyStripR b = b) (hne : b ≠ []) :
    pyStripR (a ++ b) = a ++ b := by
  have hrev : b.reverse ≠ [] := by simpa using hne
  have hb' : b.reverse.dropWhile pyWs = b.reverse := by
    have h2 := congrArg List.reverse hb
    unfold pyStripR at h2
    rwa [List.reverse_reverse] at h2
  obtain ⟨d, r, hdr⟩ : ∃ d r, b.reverse = d :: r := by
    cases hbr : b.reverse with
    | nil => exact absurd hbr hrev
    | cons d r => exact ⟨d, r, rfl⟩
  have hd : pyWs d = false := dropWhile_head_false pyWs b.reverse d r (by rw [hb', hdr])
  unfold pyStripR
  rw [List.reverse_append, hdr]
  rw [show (d :: r) ++ a.reverse = d :: (r ++ a.reverse) from rfl]
  rw [List.dropWhile_cons_of_neg (by simp [hd])]
  rw [show d :: (r ++ a.reverse) = (d :: r) ++ a.reverse from rfl, ← hdr]
  rw [List.reverse_append, List.reverse_reverse, List.reverse_reverse]

/-- Helper: a trailing whitespace character is removed by right-strip. -/
theorem pyStripR_append_ws (a : List Char) (c : Char) (hc : pyWs c = true) :
    pyStripR (a ++ [c]) = pyStripR a := by
  unfold pyStripR
  rw [List.reverse_append]
  rw [show [c].reverse ++ a.reverse = c :: a.reverse from rfl]
  rw [List.dropWhile_cons_of_pos hc]

/-- Helper: the result of a full strip is right-stripped. -/
theorem pyStripR_pyStrip (l : List Char) : pyStripR (pyStrip l) = pyStrip l := by
  unfold pyStrip
  rw [pyStripR_idem]

/-- Claim C9 (amended): a list item with non-empty cleaned text renders as
exactly `2·listLevel` spaces, the marker (`"- "` or `"<index>. "`), the
text and a newline, followed by the nested lists rendered one level
deeper; when the text is empty but nested lists exist, the marker loses
its trailing space; and ordered-list items are numbered sequentially over
the direct `li` children only. -/
theorem claim_C9 (tag : List Char) (attrs : List (List Char × List Char))
    (children : List Node) (lvl idx : Nat) (ordered : Bool) :
    (pyStrip (cleanText (inlineList tag (children.filter (fun c => !tagIs listTags c)))) ≠ [] →
      liToMd (.elem tag attrs children) lvl ordered idx =
        List.replicate (2 * lvl) ' ' ++
          (if ordered then natStr idx ++ lc ". " else lc "- ") ++
          pyStrip (cleanText (inlineList tag (children.filter (fun c => !tagIs listTags c)))) ++
          lc "\n" ++ liNested children (lvl + 1)) ∧
    (pyStrip (cleanText (inlineList tag (children.filter (fun c => !tagIs listTags c)))) = [] →
      children.any (tagIs listTags) = true →
      liToMd (.elem tag attrs children) lvl ordered idx =
        List.replicate (2 * lvl) ' ' ++
          (if ordered then natStr idx ++ lc "." else lc "-") ++
          lc "\n" ++ liNested children (lvl + 1)) ∧
    (∀ k, olItems children lvl k =
      (children.filter (tagIs [lc "li"])).mapIdx (fun i li => liToMd li lvl true (k + i))) := by
  refine ⟨?_, ?_, fun k => olItems_eq lvl children k⟩
  · intro ht
    rw [show liToMd (.elem tag attrs children) lvl ordered idx =
        liBody tag children lvl ordered idx (liNested children (lvl + 1)) from rfl]
    simp only [liBody]
    rw [if_neg (by
      rintro ⟨hemp, -⟩
      exact ht (by simpa using hemp))]
    rw [pyStripR_append_of_keep _ _ (pyStripR_pyStrip _) ht]
  · intro ht hnest
    rw [show liToMd (.elem tag attrs children) lvl ordered idx =
        liBody tag children lvl ordered idx (liNested children (lvl + 1)) from rfl]
    simp only [liBody]
    rw [if_neg (by
      rintro ⟨-, hno⟩
      rw [hnest] at hno
      simp at hno)]
    rw [ht, List.append_nil]
    by_cases ho : ordered
    · simp only [if_pos ho]
      have e1 : List.replicate (2 * lvl) ' ' ++ (natStr idx ++ lc ". ") =
          ((List.replicate (2 * lvl) ' ' ++ natStr idx) ++ lc ".") ++ [' '] := by
        rw [show lc ". " = lc "." ++ [' '] from rfl]
        simp only [List.append_assoc]
      rw [e1, pyStripR_append_ws _ _ (by decide),
        pyStripR_append_of_keep _ (lc ".") (by decide) (by decide)]
      simp [List.append_assoc]
    · simp only [if_neg ho]
      have e1 : List.replicate (2 * lvl) ' ' ++ lc "- " =
          (List.replicate (2 * lvl) ' ' ++ lc "-") ++ [' '] := by
        rw [show lc "- " = lc "-" ++ [' '] from rfl]
        simp only [List.append_assoc]
      rw [e1, pyStripR_append_ws _ _ (by decide),
        pyStripR_append_of_keep _ (lc "-") (by decide) (by decide)]

/-- Claim C9 witness: the amended statement applied to a one-text list
item at level 1 with ordered index 2, and to the text-free item
`exLiNestedOnly`. -/
theorem claim_C9_witness :
    pyStrip (cleanText (inlineList (lc "li")
        (([Node.text (lc "alpha")]).filter (fun c => !tagIs listTags c)))) ≠ [] ∧
    liToMd (.elem (lc "li") [] [.text (lc "alpha")]) 1 true 2 = lc "  2. alpha\n" ∧
    liToMd exLiNestedOnly 0 false 1 = lc "-\n  - alpha\n\n" :=
  ⟨by decide,
   ((claim_C9 (lc "li") [] [.text (lc "alpha")] 1 2 true).1 (by decide)).trans (by decide),
   ((claim_C9 (lc "li") [] [.elem (lc "ul") [] [.elem (lc "li") [] [.text (lc "alpha")]]]
      0 1 false).2.1 (by decide) (by decide)).trans (by decide)⟩

/-- Helper: attribute stripping distributes over list append. -/
theorem stripL_append (a b : List Node) : stripL (a ++ b) = stripL a ++ stripL b := by
  induction a with
  | nil => rfl
  | cons n l ih => simp [stripL, ih]

/-- Helper: comment removal commutes with attribute stripping. -/
theorem strip_remComments_l (l : List Node) :
    remCommentsL (stripL l) = stripL (remCommentsL l) := by
  refine listRecAux (fun n => remCommentsN (stripN n) = stripL (remCommentsN n))
    (fun l => remCommentsL (stripL l) = stripL (remCommentsL l)) ?_ ?_ ?_ ?_ ?_ l
  · intro s; rfl
  · intro s; rfl
  · intro t a c ih
    simp [stripN, remCommentsN, stripL, ih]
  · rfl
  · intro n l ihn ihl
    simp [stripL, remCommentsL, stripL_append, ihn, ihl]

/-- Helper: noisy-tag removal commutes with attribute stripping. -/
theorem strip_remNoisy_l (l : List Node) :
    remNoisyL (stripL l) = stripL (remNoisyL l) := by
  refine listRecAux (fun n => remNoisyN (stripN n) = stripL (remNoisyN n))
    (fun l => remNoisyL (stripL l) = stripL (remNoisyL l)) ?_ ?_ ?_ ?_ ?_ l
  · intro s; rfl
  · intro s; rfl
  · intro t a c ih
    by_cases h : pyLower t ∈ noisyTags
    · simp [stripN, remNoisyN, h, stripL]
    · simp [stripN, remNoisyN, h, stripL, ih]
  · rfl
  · intro n l ihn ihl
    simp [stripL, remNoisyL, stripL_append, ihn, ihl]

/-- Helper: `get_text` string collection ignores attributes. -/
theorem collect_strip_l (l : List Node) :
    ∀ p, collectList p (stripL l) = collectList p l := by
  refine listRecAux (fun n => ∀ p, collectNode p (stripN n) = collectNode p n)
    (fun l => ∀ p, collectList p (stripL l) = collectList p l) ?_ ?_ ?_ ?_ ?_ l
  · intro s p; rfl
  · intro s p; rfl
  · intro t a c ih p
    simp [stripN, collectNode, ih]
  · intro p; rfl
  · intro n l ihn ihl p
    simp [stripL, collectList, ihn, ihl]

/-- Helper: hyperlink unwrapping commutes with attribute stripping. -/
theorem strip_unwrap_l (l : List Node) :
    unwrapL (stripL l) = stripL (unwrapL l) := by
  refine listRecAux (fun n => unwrapN (stripN n) = stripN (unwrapN n))
    (fun l => unwrapL (stripL l) = stripL (unwrapL l)) ?_ ?_ ?_ ?_ ?_ l
  · intro s; rfl
  · intro s; rfl
  · intro t a c ih
    by_cases h : pyLower t = lc "a"
    · simp only [stripN, unwrapN, if_pos h]
      have e : getTextSep (.elem t [] (stripL c)) = getTextSep (.elem t a c) := by
        simp [getTextSep, collectTexts, collect_strip_l]
      rw [e]
    · simp only [stripN, unwrapN, if_neg h]
      simp [stripN, stripL, ih]
  · rfl
  · intro n l ihn ihl
    simp [stripL, unwrapL, ihn, ihl]

/-- Helper: attribute stripping is idempotent on child lists. -/
theorem stripL_idem (l : List Node) : stripL (stripL l) = stripL l := by
  refine listRecAux (fun n => stripN (stripN n) = stripN n)
    (fun l => stripL (stripL l) = stripL l) ?_ ?_ ?_ ?_ ?_ l
  · intro s; rfl
  · intro s; rfl
  · intro t a c ih
    simp [stripN, ih]
  · rfl
  · intro n l ihn ihl
    simp [stripL, ihn, ihl]

/-- Helper: the sanitising passes give the same tree whether or not the
descendants' attributes were already stripped. -/
theorem sanitize_strip (content : Node) :
    sanitize (stripAttrsDesc content) = sanitize content := by
  cases content with
  | text s => rfl
  | comment s => rfl
  | elem t a c =>
    simp only [sanitize, stripAttrsDesc, removeComments, removeNoisy, unwrapRoot]
    rw [strip_remComments_l, strip_remNoisy_l, strip_unwrap_l, stripL_idem]

/-- Claim C2 (amended): attribute stripping happens before the core
renderer runs, not after - the pipeline's output is invariant under
pre-stripping every descendant attribute, so a font-size declared on a
descendant paragraph is never observed; but `find_all(True)` iterates
descendants only, so a font-size style carried by the content root itself
survives the stripping and is observed: a root paragraph declaring
`font-size:23px` renders through the full pipeline as a font-size-driven
H2, making the claim's existential half true. -/
theorem claim_C2 :
    (∀ (title : List Char) (content : Node),
      wechatMd title content = wechatMd title (stripAttrsDesc content)) ∧
    wechatMd [] exRootFontP = lc "## Hi\n" :=
  ⟨fun title content => by unfold wechatMd; rw [sanitize_strip], by decide⟩

/-- Helper: the title-prepending guard, characterised.  Under the
cleanliness hypotheses (the title and the body's first line carry no
surrounding whitespace, nor does the first line after its two marker
characters), the entry point prepends `"# " + title` and a blank line
exactly when the title is non-empty and the body's first line is not
already that heading. -/
theorem prependTitle_spec (title md : List Char)
    (hT : pyStrip title = title)
    (h1 : pyStrip (firstLineRaw md) = firstLineRaw md)
    (h2 : pyStrip ((firstLineRaw md).drop 2) = (firstLineRaw md).drop 2) :
    (title ≠ [] ∧ firstLineRaw md ≠ lc "# " ++ title →
      prependTitle title md = lc "# " ++ title ++ lc "\n\n" ++ md) ∧
    (title = [] ∨ firstLineRaw md = lc "# " ++ title → prependTitle title md = md) ∧
    lc "# " ++ title ++ lc "\n\n" ++ md ≠ md := by
  have hfl : firstLine md = firstLineRaw md := h1
  refine ⟨?_, ?_, ?_⟩
  · rintro ⟨ht0, hne⟩
    simp only [prependTitle]
    rw [if_neg (by simpa using ht0), if_neg ?_]
    rintro ⟨hpre, hdrop⟩
    rw [hfl] at hpre hdrop
    obtain ⟨t, ht⟩ := List.isPrefixOf_iff_prefix.mp hpre
    have hdropt : (firstLineRaw md).drop 2 = t := by
      rw [← ht]
      rfl
    apply hne
    rw [← ht]
    have e : t = title := by
      rw [← hdropt, ← h2]
      exact hdrop
    rw [e]
  · intro h
    by_cases ht0 : title = []
    · simp [prependTitle, ht0]
    · have hFt : firstLineRaw md = lc "# " ++ title := h.resolve_left ht0
      simp only [prependTitle]
      rw [if_neg (by simpa using ht0), if_pos ?_]
      constructor
      · rw [hfl, hFt]
        exact List.isPrefixOf_iff_prefix.mpr ⟨title, rfl⟩
      · rw [hfl, hFt]
        rw [show (lc "# " ++ title).drop 2 = title from rfl, hT]
  · intro h
    have hlen := congrArg List.length h
    simp only [List.length_append,
      show (lc "# ").length = 2 from rfl, show (lc "\n\n").length = 2 from rfl] at hlen
    omega

/-- Claim C5: the entry point prepends `"# " + title` plus a blank line to
the rendered body exactly when the title is non-empty and the body's first
line is not already that heading; when the body already opens with the
heading the output is the body itself, so the heading is not duplicated
(the prepended form is never equal to the body).  Hypotheses: the title is
whitespace-trimmed (as the pipeline's title extraction guarantees) and the
body's first line is clean of surrounding whitespace.  Conversion is a
pure function of (title, tree), so converting the same tree twice yields
byte-identical output by construction. -/
theorem claim_C5 (title : List Char) (content : Node)
    (hT : pyStrip title = title)
    (hB1 : pyStrip (firstLineRaw (bodyMd (sanitize content))) =
      firstLineRaw (bodyMd (sanitize content)))
    (hB2 : pyStrip ((firstLineRaw (bodyMd (sanitize content))).drop 2) =
      (firstLineRaw (bodyMd (sanitize content))).drop 2) :
    (title ≠ [] ∧ firstLineRaw (bodyMd (sanitize content)) ≠ lc "# " ++ title →
      wechatMd title content = lc "# " ++ title ++ lc "\n\n" ++ bodyMd (sanitize content)) ∧
    (title = [] ∨ firstLineRaw (bodyMd (sanitize content)) = lc "# " ++ title →
      wechatMd title content = bodyMd (sanitize content)) ∧
    lc "# " ++ title ++ lc "\n\n" ++ bodyMd (sanitize content) ≠ bodyMd (sanitize content) :=
  prependTitle_spec title (bodyMd (sanitize content)) hT hB1 hB2

/-- Claim C5 witness: on a one-paragraph document with title `Doc`, the
body's first line is `hello`, which differs from `# Doc`, so the heading
is prepended in front of the body. -/
theorem claim_C5_witness :
    (lc "Doc" ≠ [] ∧ firstLineRaw (bodyMd (sanitize exPlainDoc)) ≠ lc "# " ++ lc "Doc") ∧
    wechatMd (lc "Doc") exPlainDoc =
      lc "# " ++ lc "Doc" ++ lc "\n\n" ++ bodyMd (sanitize exPlainDoc) :=
  ⟨⟨by decide, by decide⟩,
   (claim_C5 (lc "Doc") exPlainDoc (by decide) (by decide) (by decide)).1
     ⟨by decide, by decide⟩⟩

/-- Helper: `dropWhile` never lengthens a list. -/
theorem len_dropWhile_le (p : α → Bool) (l : List α) :
    (l.dropWhile p).length ≤ l.length := by
  induction l with
  | nil => simp
  | cons a t ih =>
    rw [List.dropWhile_cons]
    split
    · exact Nat.le_trans ih (Nat.le_succ _)
    · exact Nat.le_refl _

/-- Helper: the newline-collapse scanner in the swallowing state equals the
plain state applied after the newline run. -/
theorem collNlGo_true_eq (l : List Char) :
    collNlGo true l = collNlGo false (l.dropWhile (fun x => x = '\n')) := by
  induction l with
  | nil => rfl
  | cons c r ih =>
    by_cases hc : c = '\n'
    · subst hc
      rw [show collNlGo true ('\n' :: r) = collNlGo true r from rfl, ih,
        List.dropWhile_cons_of_pos (by simp)]
    · rw [show collNlGo true (c :: r) = c :: collNlGo false r from by
          simp [collNlGo, hc],
        List.dropWhile_cons_of_neg (by simp [hc])]
      simp [collNlGo, hc]

/-- Helper: `specColl` on the empty string. -/
theorem specColl_nil : specColl [] = [] := by
  rw [specColl]

/-- Helper: `specColl` passes a non-newline character through. -/
theorem specColl_other (c : Char) (rest : List Char) (hc : c ≠ '\n') :
    specColl (c :: rest) = c :: specColl rest := by
  rw [specColl, if_neg hc]

/-- Helper: `specColl` on a newline run. -/
theorem specColl_nl (rest : List Char) :
    specColl ('\n' :: rest) =
      List.replicate (min (('\n' :: rest).takeWhile (fun x => x = '\n')).length 2) '\n' ++
        specColl (('\n' :: rest).dropWhile (fun x => x = '\n')) := by
  rw [specColl, if_pos rfl]

/-- Helper: the entry point's newline collapse agrees with the
run-at-a-time description `specColl`. -/
theorem collNl_eq_specColl (s : List Char) : collNl s = specColl s := by
  suffices h : ∀ n (s : List Char), s.length ≤ n → collNlGo false s = specColl s from
    h s.length s (Nat.le_refl _)
  intro n
  induction n with
  | zero =>
    intro s hs
    have : s = [] := List.length_eq_zero.mp (Nat.le_zero.mp hs)
    subst this
    rw [specColl_nil]
    rfl
  | succ n ih =>
    intro s hs
    match s with
    | [] =>
      rw [specColl_nil]
      rfl
    | c :: rest =>
      by_cases hc : c = '\n'
      · subst hc
        match rest with
        | [] =>
          rw [show collNlGo false ['\n'] = ['\n'] from rfl, specColl_nl]
          rw [List.takeWhile_cons_of_pos (by simp), List.dropWhile_cons_of_pos (by simp)]
          simp [specColl_nil]
        | d :: r2 =>
          by_cases hd : d = '\n'
          · subst hd
            match r2 with
            | [] =>
              rw [show collNlGo false ['\n', '\n'] = ['\n', '\n'] from rfl, specColl_nl]
              rw [List.takeWhile_cons_of_pos (by simp), List.takeWhile_cons_of_pos (by simp),
                List.dropWhile_cons_of_pos (by simp), List.dropWhile_cons_of_pos (by simp)]
              simp [specColl_nil]
            | e :: r3 =>
              by_cases he : e = '\n'
              · subst he
                rw [show collNlGo false ('\n' :: '\n' :: '\n' :: r3) =
                    '\n' :: '\n' :: collNlGo true ('\n' :: '\n' :: r3) from rfl]
                rw [collNlGo_true_eq]
                rw [List.dropWhile_cons_of_pos (by simp),
                  List.dropWhile_cons_of_pos (by simp)]
                have hlen : (r3.dropWhile (fun x => x = '\n')).length ≤ n := by
                  have h1 := len_dropWhile_le (fun x => decide (x = '\n')) r3
                  simp at hs
                  omega
                rw [ih _ hlen, specColl_nl]
                rw [List.takeWhile_cons_of_pos (by simp),
                  List.takeWhile_cons_of_pos (by simp),
                  List.takeWhile_cons_of_pos (by simp),
                  List.dropWhile_cons_of_pos (by simp),
                  List.dropWhile_cons_of_pos (by simp),
                  List.dropWhile_cons_of_pos (by simp)]
                have hmin : min ('\n' :: '\n' :: '\n' ::
                    r3.takeWhile (fun x => x = '\n')).length 2 = 2 := by
                  simp only [List.length_cons]
                  omega
                rw [hmin]
                rfl
              · rw [show collNlGo false ('\n' :: '\n' :: e :: r3) =
                    '\n' :: '\n' :: collNlGo false (e :: r3) from by
                      simp [collNlGo, he]]
                have hlen : (e :: r3).length ≤ n := by
                  simp at hs ⊢
                  omega
                rw [ih _ hlen, specColl_nl]
                rw [List.takeWhile_cons_of_pos (by simp),
                  List.takeWhile_cons_of_pos (by simp),
                  List.takeWhile_cons_of_neg (by simp [he]),
                  List.dropWhile_cons_of_pos (by simp),
                  List.dropWhile_cons_of_pos (by simp),
                  List.dropWhile_cons_of_neg (by simp [he])]
                rfl
          · rw [show collNlGo false ('\n' :: d :: r2) =
                '\n' :: collNlGo false (d :: r2) from by
                  simp [collNlGo, hd]]
            have hlen : (d :: r2).length ≤ n := by
              simp at hs ⊢
              omega
            rw [ih _ hlen, specColl_nl]
            rw [List.takeWhile_cons_of_pos (by simp),
              List.takeWhile_cons_of_neg (by simp [hd]),
              List.dropWhile_cons_of_pos (by simp),
              List.dropWhile_cons_of_neg (by simp [hd])]
            rfl
      · rw [show collNlGo false (c :: rest) = c :: collNlGo false rest from by
            simp [collNlGo, hc]]
        have hlen : rest.length ≤ n := by
          simp at hs
          omega
        rw [ih _ hlen, specColl_other c rest hc]

/-- Helper: a horizontal whitespace character is not a newline. -/
theorem hws_ne_nl {c : Char} (h : isHws c = true) : c ≠ '\n' := by
  rcases (by simpa [isHws] using h : c = ' ' ∨ c = '\t') with h' | h' <;> simp [h']

/-- Helper: `takeWhile` keeps only characters satisfying the predicate. -/
theorem takeWhile_all (p : α → Bool) (l : List α) : (l.takeWhile p).all p = true := by
  induction l with
  | nil => rfl
  | cons a t ih =>
    by_cases h : p a
    · rw [List.takeWhile_cons_of_pos h]
      simp [h, ih]
    · rw [List.takeWhile_cons_of_neg h]
      rfl

/-- Equation: `sub1Go` flushes the pending run at the end. -/
theorem s1_nil (acc : List Char) : sub1Go acc [] = acc.reverse := rfl

/-- Equation: `sub1Go` extends the pending run. -/
theorem s1_hws {c : Char} (acc l : List Char) (h : isHws c = true) :
    sub1Go acc (c :: l) = sub1Go (c :: acc) l := by
  simp [sub1Go, h]

/-- Equation: a newline discards the pending run. -/
theorem s1_nl (acc l : List Char) : sub1Go acc ('\n' :: l) = '\n' :: sub1Go [] l := by
  simp [sub1Go, isHws]

/-- Equation: any other character flushes the pending run. -/
theorem s1_other {c : Char} (acc l : List Char) (h1 : isHws c = false) (h2 : c ≠ '\n') :
    sub1Go acc (c :: l) = acc.reverse ++ c :: sub1Go [] l := by
  simp [sub1Go, h1, h2]

/-- Helper: `sub1Go` swallows a whole horizontal run into the accumulator. -/
theorem sub1Go_run : ∀ (run acc l : List Char), run.all isHws = true →
    sub1Go acc (run ++ l) = sub1Go (run.reverse ++ acc) l := by
  intro run
  induction run with
  | nil => intro acc l _; rfl
  | cons c t ih =>
    intro acc l h
    simp only [List.all_cons, Bool.and_eq_true] at h
    rw [List.cons_append, s1_hws acc (t ++ l) h.1, ih (c :: acc) l h.2]
    simp

/-- Equation: `sub2Go` after a newline swallows whitespace. -/
theorem s2_true_hws {c : Char} (l : List Char) (h : isHws c = true) :
    sub2Go true (c :: l) = sub2Go true l := by
  simp [sub2Go, h]

/-- Equation: `sub2Go` emits a newline and enters the swallowing state. -/
theorem s2_nl (b : Bool) (l : List Char) :
    sub2Go b ('\n' :: l) = '\n' :: sub2Go true l := by
  cases b <;> simp [sub2Go, isHws]

/-- Equation: in the plain state `sub2Go` copies any non-newline. -/
theorem s2_false_cons {c : Char} (l : List Char) (h2 : c ≠ '\n') :
    sub2Go false (c :: l) = c :: sub2Go false l := by
  simp [sub2Go, h2]

/-- Equation: a non-whitespace non-newline leaves the swallowing state. -/
theorem s2_true_other {c : Char} (l : List Char) (h1 : isHws c = false) (h2 : c ≠ '\n') :
    sub2Go true (c :: l) = c :: sub2Go false l := by
  simp [sub2Go, h1, h2]

/-- Helper: `sub2Go` in the swallowing state deletes a whole run. -/
theorem sub2Go_run : ∀ (run l : List Char), run.all isHws = true →
    sub2Go true (run ++ l) = sub2Go true l := by
  intro run
  induction run with
  | nil => intro l _; rfl
  | cons c t ih =>
    intro l h
    simp only [List.all_cons, Bool.and_eq_true] at h
    rw [List.cons_append, s2_true_hws _ h.1, ih l h.2]

/-- Helper: `sub2Go` in the plain state copies a whole run. -/
theorem sub2Go_run_false : ∀ (run l : List Char), run.all isHws = true →
    sub2Go false (run ++ l) = run ++ sub2Go false l := by
  intro run
  induction run with
  | nil => intro l _; rfl
  | cons c t ih =>
    intro l h
    simp only [List.all_cons, Bool.and_eq_true] at h
    rw [List.cons_append, s2_false_cons _ (hws_ne_nl h.1), ih l h.2, List.cons_append]

/-- Equation: `sub3Go` inside a collapsed run swallows whitespace. -/
theorem s3_true_hws {c : Char} (l : List Char) (h : isHws c = true) :
    sub3Go true (c :: l) = sub3Go true l := by
  simp [sub3Go, h]

/-- Equation: a non-whitespace character leaves the collapsed-run state. -/
theorem s3_true_other {c : Char} (l : List Char) (h : isHws c = false) :
    sub3Go true (c :: l) = c :: sub3Go false l := by
  simp [sub3Go, h]

/-- Equation: `sub3Go` copies a non-whitespace character. -/
theorem s3_false_other {c : Char} (l : List Char) (h : isHws c = false) :
    sub3Go false (c :: l) = c :: sub3Go false l := by
  simp [sub3Go, h]

/-- Equation: two adjacent whitespace characters start a collapse. -/
theorem s3_false_two {c d : Char} (r : List Char) (h1 : isHws c = true)
    (h2 : isHws d = true) :
    sub3Go false (c :: d :: r) = ' ' :: sub3Go true (d :: r) := by
  simp [sub3Go, h1, h2]

/-- Equation: a final lone whitespace character is kept. -/
theorem s3_false_one_nil {c : Char} (h : isHws c = true) : sub3Go false [c] = [c] := by
  simp [sub3Go, h]

/-- Equation: a lone whitespace character is kept. -/
theorem s3_false_one {c d : Char} (r : List Char) (h1 : isHws c = true)
    (h2 : isHws d = false) :
    sub3Go false (c :: d :: r) = c :: sub3Go false (d :: r) := by
  simp [sub3Go, h1, h2]

/-- Helper: `sub3Go` in the collapsed-run state deletes a whole run. -/
theorem sub3Go_run : ∀ (run l : List Char), run.all isHws = true →
    sub3Go true (run ++ l) = sub3Go true l := by
  intro run
  induction run with
  | nil => intro l _; rfl
  | cons c t ih =>
    intro l h
    simp only [List.all_cons, Bool.and_eq_true] at h
    rw [List.cons_append, s3_true_hws _ h.1, ih l h.2]

/-- Helper: the collapsed-run state and the plain state agree on a list
that does not open with horizontal whitespace. -/
theorem sub3Go_true_eq_false : ∀ l : List Char,
    (l = [] ∨ ∃ d r, l = d :: r ∧ isHws d = false) → sub3Go true l = sub3Go false l := by
  rintro l (rfl | ⟨d, r, rfl, hd⟩)
  · rfl
  · rw [s3_true_other _ hd, s3_false_other _ hd]

/-- Helper: `sub3Go` collapses a maximal whitespace run of length at least
two to one space and keeps a lone whitespace character. -/
theorem sub3Go_collapse : ∀ (run l : List Char), run ≠ [] → run.all isHws = true →
    (l = [] ∨ ∃ d r, l = d :: r ∧ isHws d = false) →
    sub3Go false (run ++ l) = (if 2 ≤ run.length then [' '] else run) ++ sub3Go false l := by
  intro run l hne hall hl
  match run with
  | [] => exact absurd rfl hne
  | [c] =>
    simp only [List.all_cons, Bool.and_eq_true] at hall
    rcases hl with rfl | ⟨d, r, rfl, hd⟩
    · rw [List.append_nil, s3_false_one_nil hall.1, if_neg (by simp)]
      rfl
    · rw [List.cons_append, List.nil_append, s3_false_one r hall.1 hd,
        if_neg (by simp)]
      rfl
  | c :: c2 :: t =>
    simp only [List.all_cons, Bool.and_eq_true] at hall
    rw [List.cons_append, List.cons_append,
      s3_false_two (t ++ l) hall.1 hall.2.1,
      show c2 :: (t ++ l) = (c2 :: t) ++ l from rfl,
      sub3Go_run (c2 :: t) l (by simp [hall.2.1, hall.2.2]),
      sub3Go_true_eq_false l hl]
    have h2 : 2 ≤ (c :: c2 :: t).length := by simp
    rw [if_pos h2]
    rfl

/-- Equation: `specCleanGo` on the empty string. -/
theorem sp_nil (b : Bool) : specCleanGo b [] = [] := by
  rw [specCleanGo]

/-- Equation: `specCleanGo` right after a newline skips the whole run. -/
theorem sp_hws_true {c : Char} (rest : List Char) (h : isHws c = true) :
    specCleanGo true (c :: rest) = specCleanGo false ((c :: rest).dropWhile isHws) := by
  rw [specCleanGo, if_pos h, if_pos (Or.inl rfl)]

/-- Equation: `specCleanGo` deletes a run that sits before a newline. -/
theorem sp_hws_false_nl {c : Char} (rest : List Char) (h : isHws c = true)
    (hh : ((c :: rest).dropWhile isHws).head? = some '\n') :
    specCleanGo false (c :: rest) = specCleanGo false ((c :: rest).dropWhile isHws) := by
  rw [specCleanGo, if_pos h, if_pos (Or.inr hh)]

/-- Equation: `specCleanGo` collapses an interior run of length at least two. -/
theorem sp_hws_false_col {c : Char} (rest : List Char) (h : isHws c = true)
    (hh : ¬ ((c :: rest).dropWhile isHws).head? = some '\n')
    (hlen : 2 ≤ ((c :: rest).takeWhile isHws).length) :
    specCleanGo false (c :: rest) = ' ' :: specCleanGo false ((c :: rest).dropWhile isHws) := by
  have hcond : ¬ ((false : Bool) = true ∨
      ((c :: rest).dropWhile isHws).head? = some '\n') := by
    rintro (hx | hx)
    · exact absurd hx (by decide)
    · exact hh hx
  rw [specCleanGo, if_pos h, if_neg hcond, if_pos hlen]

/-- Equation: `specCleanGo` keeps an interior lone whitespace character. -/
theorem sp_hws_false_one {c : Char} (rest : List Char) (h : isHws c = true)
    (hh : ¬ ((c :: rest).dropWhile isHws).head? = some '\n')
    (hlen : ¬ 2 ≤ ((c :: rest).takeWhile isHws).length) :
    specCleanGo false (c :: rest) = c :: specCleanGo false ((c :: rest).dropWhile isHws) := by
  have hcond : ¬ ((false : Bool) = true ∨
      ((c :: rest).dropWhile isHws).head? = some '\n') := by
    rintro (hx | hx)
    · exact absurd hx (by decide)
    · exact hh hx
  rw [specCleanGo, if_pos h, if_neg hcond, if_neg hlen]

/-- Equation: `specCleanGo` copies a newline and enters the after-newline state. -/
theorem sp_nl (b : Bool) (rest : List Char) :
    specCleanGo b ('\n' :: rest) = '\n' :: specCleanGo true rest := by
  rw [specCleanGo]
  simp [isHws]

/-- Equation: `specCleanGo` copies an ordinary character. -/
theorem sp_other {c : Char} (rest : List Char) (h1 : isHws c = false) (h2 : c ≠ '\n')
    (b : Bool) : specCleanGo b (c :: rest) = c :: specCleanGo false rest := by
  rw [specCleanGo]
  simp [h1, h2]

/-- Main bridge: the three-pass implementation of `_clean_text` agrees with
the single-pass description, in both scanner states, by strong induction on
the length of the input. -/
theorem clean_spec_aux : ∀ (n : Nat) (s : List Char), s.length ≤ n →
    sub3Go false (sub2Go false (sub1Go [] s)) = specCleanGo false s ∧
    sub3Go false (sub2Go true (sub1Go [] s)) = specCleanGo true s := by
  intro n
  induction n with
  | zero =>
    intro s hs
    have hnil : s = [] := List.eq_nil_of_length_eq_zero (Nat.le_zero.mp hs)
    subst hnil
    exact ⟨by rw [sp_nil]; rfl, by rw [sp_nil]; rfl⟩
  | succ n ih =>
    intro s hs
    match s with
    | [] => exact ⟨by rw [sp_nil]; rfl, by rw [sp_nil]; rfl⟩
    | c :: rest =>
      have hrest : rest.length ≤ n := by
        simp only [List.length_cons] at hs
        omega
      by_cases hc : isHws c
      · -- head is horizontal whitespace: work with the maximal run
        have hdec : (c :: rest).takeWhile isHws ++ (c :: rest).dropWhile isHws
            = c :: rest := List.takeWhile_append_dropWhile isHws (c :: rest)
        have hall : ((c :: rest).takeWhile isHws).all isHws = true :=
          takeWhile_all _ _
        have hne : (c :: rest).takeWhile isHws ≠ [] := by
          rw [List.takeWhile_cons_of_pos hc]
          simp
        have hlen2 : ((c :: rest).dropWhile isHws).length ≤ rest.length := by
          rw [List.dropWhile_cons_of_pos hc]
          exact len_dropWhile_le _ _
        have hL1 : sub1Go [] (c :: rest)
            = sub1Go ((c :: rest).takeWhile isHws).reverse
                ((c :: rest).dropWhile isHws) := by
          conv_lhs => rw [← hdec]
          rw [sub1Go_run _ [] _ hall, List.append_nil]
        cases hr2 : (c :: rest).dropWhile isHws with
        | nil =>
          -- the whole remaining input is one whitespace run
          have hL1n : sub1Go [] (c :: rest) = (c :: rest).takeWhile isHws := by
            rw [hL1, hr2, s1_nil, List.reverse_reverse]
          have hhh : ¬ ((c :: rest).dropWhile isHws).head? = some '\n' := by
            rw [hr2]
            simp
          constructor
          · have hL2 : sub2Go false ((c :: rest).takeWhile isHws)
                = (c :: rest).takeWhile isHws := by
              have h0 := sub2Go_run_false _ [] hall
              rw [List.append_nil] at h0
              rw [h0, show sub2Go false ([] : List Char) = [] from rfl,
                List.append_nil]
            have hL3 := sub3Go_collapse ((c :: rest).takeWhile isHws) [] hne hall
              (Or.inl rfl)
            rw [List.append_nil] at hL3
            rw [hL1n, hL2, hL3, show sub3Go false ([] : List Char) = [] from rfl,
              List.append_nil]
            by_cases hlen : 2 ≤ ((c :: rest).takeWhile isHws).length
            · rw [if_pos hlen, sp_hws_false_col rest hc hhh hlen, hr2, sp_nil]
            · have hone : (c :: rest).takeWhile isHws = [c] := by
                rw [List.takeWhile_cons_of_pos hc]
                rw [List.takeWhile_cons_of_pos hc] at hlen
                have : (rest.takeWhile isHws).length = 0 := by
                  simp only [List.length_cons] at hlen
                  omega
                rw [List.length_eq_zero.mp this]
              rw [if_neg hlen, sp_hws_false_one rest hc hhh hlen, hr2, sp_nil,
                hone]
          · have hL2 : sub2Go true ((c :: rest).takeWhile isHws) = [] := by
              have h0 := sub2Go_run _ [] hall
              rw [List.append_nil] at h0
              rw [h0]
              rfl
            rw [hL1n, hL2, show sub3Go false ([] : List Char) = [] from rfl,
              sp_hws_true rest hc, hr2, sp_nil]
        | cons d r2 =>
          have hd : isHws d = false := dropWhile_head_false isHws _ _ _ hr2
          have hr2len : r2.length ≤ n := by
            rw [hr2] at hlen2
            simp only [List.length_cons] at hlen2
            omega
          have hih := ih r2 hr2len
          by_cases hdn : d = '\n'
          · -- the run sits directly before a newline and is deleted
            subst hdn
            have hhh : ((c :: rest).dropWhile isHws).head? = some '\n' := by
              rw [hr2]
              rfl
            constructor
            · rw [hL1, hr2, s1_nl, s2_nl, s3_false_other _ (by decide),
                hih.2, sp_hws_false_nl rest hc hhh, hr2, sp_nl]
            · rw [hL1, hr2, s1_nl, s2_nl, s3_false_other _ (by decide),
                hih.2, sp_hws_true rest hc, hr2, sp_nl]
          · -- interior run followed by an ordinary character
            have hhh : ¬ ((c :: rest).dropWhile isHws).head? = some '\n' := by
              rw [hr2]
              simp [hdn]
            have hW : sub3Go false ((c :: rest).takeWhile isHws
                ++ (d :: sub2Go false (sub1Go [] r2)))
                = (if 2 ≤ ((c :: rest).takeWhile isHws).length
                    then [' '] else (c :: rest).takeWhile isHws)
                  ++ sub3Go false (d :: sub2Go false (sub1Go [] r2)) :=
              sub3Go_collapse _ _ hne hall (Or.inr ⟨d, _, rfl, hd⟩)
            constructor
            · rw [hL1, hr2, s1_other _ _ hd hdn, List.reverse_reverse,
                sub2Go_run_false _ _ hall, s2_false_cons _ hdn, hW,
                s3_false_other _ hd, hih.1]
              by_cases hlen : 2 ≤ ((c :: rest).takeWhile isHws).length
              · rw [if_pos hlen, sp_hws_false_col rest hc hhh hlen, hr2,
                  sp_other r2 hd hdn false]
                rfl
              · have hone : (c :: rest).takeWhile isHws = [c] := by
                  rw [List.takeWhile_cons_of_pos hc]
                  rw [List.takeWhile_cons_of_pos hc] at hlen
                  have h1 : (rest.takeWhile isHws).length = 0 := by
                    simp only [List.length_cons] at hlen
                    omega
                  rw [List.length_eq_zero.mp h1]
                rw [if_neg hlen, sp_hws_false_one rest hc hhh hlen, hr2,
                  sp_other r2 hd hdn false, hone]
                rfl
            · rw [hL1, hr2, s1_other _ _ hd hdn, List.reverse_reverse,
                sub2Go_run _ _ hall, s2_true_other _ hd hdn,
                s3_false_other _ hd, hih.1,
                sp_hws_true rest hc, hr2, sp_other r2 hd hdn false]
      · by_cases hn : c = '\n'
        · subst hn
          have hih := ih rest hrest
          constructor
          · rw [s1_nl, s2_nl, s3_false_other _ (by decide), hih.2,
              sp_nl false rest]
          · rw [s1_nl, s2_nl, s3_false_other _ (by decide), hih.2,
              sp_nl true rest]
        · have hih := ih rest hrest
          constructor
          · rw [s1_other _ _ (by simpa using hc) hn, List.reverse_nil,
              List.nil_append, s2_false_cons _ hn,
              s3_false_other _ (by simpa using hc), hih.1,
              sp_other rest (by simpa using hc) hn false]
          · rw [s1_other _ _ (by simpa using hc) hn, List.reverse_nil,
              List.nil_append, s2_true_other _ (by simpa using hc) hn,
              s3_false_other _ (by simpa using hc), hih.1,
              sp_other rest (by simpa using hc) hn true]

/-- Corollary: `_clean_text` equals its one-pass specification. -/
theorem cleanText_eq_specClean (s : List Char) : cleanText s = specClean s := by
  unfold cleanText specClean sub3 sub2 sub1
  exact (clean_spec_aux (cleanPhase1 s).length (cleanPhase1 s) le_rfl).1

/-- Helper: a string of horizontal whitespace contains no newline. -/
theorem count_nl_hws_zero : ∀ l : List Char, l.all isHws = true →
    l.count '\n' = 0 := by
  intro l
  induction l with
  | nil => intro _; rfl
  | cons c r ih =>
    intro h
    simp only [List.all_cons, Bool.and_eq_true] at h
    simp [List.count_cons, hws_ne_nl h.1, ih h.2]

/-- Newline count is preserved by the first substitution pass. -/
theorem cnt_sub1 : ∀ (l acc : List Char), acc.all isHws = true →
    (sub1Go acc l).count '\n' = l.count '\n' := by
  intro l
  induction l with
  | nil =>
    intro acc h
    rw [s1_nil]
    simp [List.count_reverse, count_nl_hws_zero acc h]
  | cons c r ih =>
    intro acc h
    by_cases hc : isHws c
    · rw [s1_hws _ _ hc, ih (c :: acc) (by simp [hc, h])]
      simp [List.count_cons, hws_ne_nl hc]
    · by_cases hn : c = '\n'
      · subst hn
        rw [s1_nl]
        simp [List.count_cons, ih [] rfl]
      · rw [s1_other _ _ (by simpa using hc) hn]
        simp [List.count_append, List.count_reverse, count_nl_hws_zero acc h,
          List.count_cons, hn, ih [] rfl]

/-- Newline count is preserved by the second substitution pass. -/
theorem cnt_sub2 : ∀ (l : List Char) (b : Bool),
    (sub2Go b l).count '\n' = l.count '\n' := by
  intro l
  induction l with
  | nil => intro b; rfl
  | cons c r ih =>
    intro b
    by_cases hn : c = '\n'
    · subst hn
      rw [s2_nl]
      simp [List.count_cons, ih true]
    · cases b with
      | false =>
        rw [s2_false_cons _ hn]
        simp [List.count_cons, ih false]
      | true =>
        by_cases hc : isHws c
        · rw [s2_true_hws _ hc, ih true]
          simp [List.count_cons, hws_ne_nl hc]
        · rw [s2_true_other _ (by simpa using hc) hn]
          simp [List.count_cons, ih false]

/-- Newline count is preserved by the third substitution pass. -/
theorem cnt_sub3 : ∀ (l : List Char) (b : Bool),
    (sub3Go b l).count '\n' = l.count '\n' := by
  intro l
  induction l with
  | nil => intro b; cases b <;> rfl
  | cons c r ih =>
    intro b
    cases b with
    | true =>
      by_cases hc : isHws c
      · rw [s3_true_hws _ hc, ih true]
        simp [List.count_cons, hws_ne_nl hc]
      · rw [s3_true_other _ (by simpa using hc)]
        simp [List.count_cons, ih false]
    | false =>
      by_cases hc : isHws c
      · cases r with
        | nil => rw [s3_false_one_nil hc]
        | cons d r2 =>
          by_cases hd : isHws d
          · rw [s3_false_two _ hc hd]
            have h1 : (' ' : Char) ≠ '\n' := by decide
            simp [List.count_cons, h1, hws_ne_nl hc, ih true]
          · rw [s3_false_one _ hc (by simpa using hd)]
            simp [List.count_cons, ih false]
      · rw [s3_false_other _ (by simpa using hc)]
        simp [List.count_cons, ih false]

/-- Newline count is preserved by the non-breaking-space replacement. -/
theorem cnt_map : ∀ r : List Char,
    (r.map (fun c => if c = ' ' then ' ' else c)).count '\n' = r.count '\n' := by
  intro r
  induction r with
  | nil => rfl
  | cons c t ih =>
    rw [List.map_cons]
    by_cases h : c = ' '
    · subst h
      have h1 : (' ' : Char) ≠ '\n' := by decide
      have h2 : (' ' : Char) ≠ '\n' := by decide
      simp [List.count_cons, h1, h2, ih]
    · simp [h, List.count_cons, ih]

/-- Newline count is preserved by the character-replacement phase. -/
theorem cnt_phase1 (l : List Char) :
    (cleanPhase1 l).count '\n' = l.count '\n' := by
  have h := cnt_map l
  simp only [cleanPhase1]
  simp [List.count_filter]
  exact h

/-- Corollary: `_clean_text` never deletes or merges newline characters. -/
theorem cnt_cleanText (s : List Char) :
    (cleanText s).count '\n' = s.count '\n' := by
  unfold cleanText sub3 sub2 sub1
  rw [cnt_sub3, cnt_sub2, cnt_sub1 _ [] rfl, cnt_phase1]

/-- Helper: a non-empty stripped string ends in a non-whitespace character. -/
theorem reverse_strip_head (X : List Char) (h : pyStrip X ≠ []) :
    ∃ c r, (pyStrip X).reverse = c :: r ∧ pyWs c = false := by
  cases hc : (pyStripL X).reverse.dropWhile pyWs with
  | nil =>
    exact absurd (by unfold pyStrip pyStripR; rw [hc]; rfl) h
  | cons c r =>
    refine ⟨c, r, ?_, dropWhile_head_false pyWs _ _ _ hc⟩
    unfold pyStrip pyStripR
    rw [List.reverse_reverse, hc]

/-- Helper: `endsOneNl` only looks at the final two characters, so a prefix
may be prepended freely when there are at least two of them. -/
theorem endsOneNl_append (Y l : List Char) (a b : Char) (t : List Char)
    (h : l.reverse = a :: b :: t) : endsOneNl (Y ++ l) = endsOneNl l := by
  unfold endsOneNl
  rw [List.reverse_append, h]
  rfl

/-- The rendered body of the pipeline, when its stripped core is non-empty,
ends with exactly one newline. -/
theorem endsOneNl_cond : ∀ (title : List Char) (content : Node),
    bodyMd (sanitize content) ≠ lc "\n" ∨ title = [] →
    endsOneNl (wechatMd title content) = true := by
  intro title content h
  by_cases hz : pyStrip (collNl (pyStrip (cleanText (toMd (sanitize content) 0)))) = []
  · have hbody : bodyMd (sanitize content) = lc "\n" := by
      unfold bodyMd
      rw [hz]
      rfl
    have htitle : title = [] := by
      rcases h with h | h
      · exact absurd hbody h
      · exact h
    subst htitle
    unfold wechatMd prependTitle
    rw [if_pos (show ([] : List Char).isEmpty = true from rfl), hbody]
    decide
  · obtain ⟨c, r, hrev, hcw⟩ := reverse_strip_head _ hz
    have hcn : c ≠ '\n' := by
      intro e
      rw [e] at hcw
      exact absurd hcw (by decide)
    have hbrev : (bodyMd (sanitize content)).reverse = '\n' :: c :: r := by
      unfold bodyMd
      rw [List.reverse_append, hrev]
      rfl
    have hmain : endsOneNl (bodyMd (sanitize content)) = true := by
      unfold endsOneNl
      rw [hbrev]
      simp [hcn]
    unfold wechatMd
    simp only [prependTitle]
    by_cases ht : title.isEmpty
    · rw [if_pos ht]
      exact hmain
    · rw [if_neg ht]
      by_cases hg : (lc "# ").isPrefixOf (firstLine (bodyMd (sanitize content))) ∧
          pyStrip ((firstLine (bodyMd (sanitize content))).drop 2) = title
      · rw [if_pos hg]
        exact hmain
      · rw [if_neg hg, endsOneNl_append _ _ '\n' c r hbrev]
        exact hmain

/-- Claim C6 (amended): the whitespace normalizer `_clean_text` behaves
exactly as described - non-breaking spaces become plain spaces, zero-width
spaces disappear, horizontal whitespace touching a newline is deleted, and
every other maximal run of two or more horizontal whitespace characters
collapses to a single space (`specClean` is that one-pass description);
newlines are never removed or merged by it; only the entry point collapses
runs of three or more newlines to exactly two (`specColl` is that one-pass
description); and the final output ends with exactly one trailing newline
whenever the rendered body is not the bare newline string or no title is
prepended (with a non-empty title and an empty body the guard fails, as the
separate counterexample shows). -/
theorem claim_C6 :
    (∀ s : List Char, cleanText s = specClean s) ∧
    (∀ s : List Char, (cleanText s).count '\n' = s.count '\n') ∧
    (∀ s : List Char, collNl s = specColl s) ∧
    (∀ (title : List Char) (content : Node),
      bodyMd (sanitize content) ≠ lc "\n" ∨ title = [] →
      endsOneNl (wechatMd title content) = true) :=
  ⟨cleanText_eq_specClean, cnt_cleanText, collNl_eq_specColl, endsOneNl_cond⟩

/-- Claim C6 (witness): on a concrete document with a plain paragraph the
rendered body is not the bare newline, and the final output does end with
exactly one trailing newline. -/
theorem claim_C6_witness :
    (bodyMd (sanitize exPlainDoc) ≠ lc "\n" ∨ lc "T" = []) ∧
    endsOneNl (wechatMd (lc "T") exPlainDoc) = true :=
  ⟨Or.inl (by decide), claim_C6.2.2.2 (lc "T") exPlainDoc (Or.inl (by decide))⟩

end WC
